import Mathlib

/-!
Shallow embedding of the pycortex dataset layer
(src/cortex/dataset/__init__.py) together with the parts of the
braindata/views modules that this file imports but whose sources are not
available; those parts are modelled from the specification and marked as
such in their doc comments.

Python dictionaries (used for Dataset.views) are modelled as
insertion-ordered association lists with unique keys: assigning to an
existing key replaces the value in place, assigning to a fresh key appends
at the end, matching CPython dict semantics.
-/

namespace PyCortex

/-- A heterogeneous Python value appearing inside a tuple argument to
normalize: either a numeric array or a string. -/
inductive Arg where
  | arr (xs : List Int)
  | str (s : String)
deriving DecidableEq, Repr

def Arg.asArr : Arg → List Int
  | .arr xs => xs
  | .str _ => []

def Arg.asStr : Arg → String
  | .str s => s
  | .arr _ => ""

/-- The mask slot of a BrainData (source attribute name: _mask): absent,
a named reference to a stored mask, or an inline mask array.  The source
tests isinstance(data._mask, str) to distinguish named masks. -/
inductive MaskRef where
  | noMask
  | named (m : String)
  | inline (a : List Bool)
deriving DecidableEq, Repr

inductive BDVariant where
  | volume
  | vertex
deriving DecidableEq, Repr

/-- Modelled from the spec: a BrainData value object — a numeric array plus
subject, optional transform name and mask (braindata module not in src/).
The oid field models Python object identity (the id() of the instance); it
is carried along by every operation but excluded from the value-identity
key used for deduplication. -/
structure BrainData where
  oid : Nat
  name : String
  subject : String
  xfmname : Option String
  mask : MaskRef
  contents : List Int
  variant : BDVariant
deriving DecidableEq, Repr

/-- Modelled from the spec: the identity rule for deduplication — two
BrainData are the same underlying data when their subject, transform,
mask reference and array contents are identical. -/
def bdKey (b : BrainData) : String × Option String × MaskRef × List Int :=
  (b.subject, b.xfmname, b.mask, b.contents)

/-- Modelled from the spec: a View is an ordered bundle of one or three
BrainData channels with a display priority (views module not in src/). -/
structure View where
  channels : List BrainData
  priority : Nat
  rgb : Bool
deriving DecidableEq, Repr

/-- Modelled from the spec: the default (mid-range) priority a DataView
gets when none is supplied. -/
def defaultPriority : Nat := 50

/-- Modelled from the spec: DataView wrapping a single BrainData as a
single-channel View. -/
def DataView (b : BrainData) : View :=
  { channels := [b], priority := defaultPriority, rgb := false }

/-- Modelled from the spec: DataView applied to a sequence of
BrainData/arrays — a list of length exactly three builds an RGB composite
View with three channels; any other length is an unsupported shape. -/
def DataView.ofList (bs : List BrainData) : Option View :=
  if bs.length = 3 then
    some { channels := bs, priority := defaultPriority, rgb := true }
  else
    none

/-- A stored /views entry: ordered references to /data entries by id,
plus the display attributes that round-trip. -/
structure VNode where
  refs : List String
  priority : Nat
  rgb : Bool
deriving DecidableEq, Repr

/-- A stored data entry.  Reconstruction needs its metadata; an entry
whose required metadata is missing is modelled as none (BrainData.from_hdf
raises KeyError on it). -/
def DNode := Option BrainData
deriving DecidableEq, Repr

/-- The hierarchical package file: stray top-level entries (the loop over
h5.items() skips the reserved names), the /views region and the /data
region. -/
structure H5File where
  topEntries : List (String × DNode)
  viewEntries : List (String × VNode)
  dataEntries : List (String × DNode)
deriving DecidableEq, Repr

def reservedNames : List String := ["data", "subjects", "views"]

/-- A Dataset: the views dict plus the backing-file handle (None until the
Dataset is saved to or loaded from a file). -/
structure Dataset where
  views : List (String × View)
  h5 : Option H5File
deriving DecidableEq, Repr

/-- Association-list lookup with String keys (dict read). -/
def dictGet (m : List (String × α)) (k : String) : Option α :=
  match m with
  | [] => none
  | (k', v) :: rest => if k' = k then some v else dictGet rest k

/-- Dict assignment: replace in place when the key exists, append at the
end otherwise (CPython dict semantics). -/
def dictInsert (m : List (String × α)) (k : String) (v : α) : List (String × α) :=
  if m.any (fun p => p.1 = k) then
    m.map (fun p => if p.1 = k then (k, v) else p)
  else
    m ++ [(k, v)]

/-- dict.update other: assign every pair of other in order. -/
def dictUpdate (m other : List (String × α)) : List (String × α) :=
  other.foldl (fun acc p => dictInsert acc p.1 p.2) m

/-- The heterogeneous inputs normalize dispatches on. -/
inductive NormInput where
  | view (v : View)
  | dset (d : Dataset)
  | bdata (b : BrainData)
  | dict (entries : List (String × NormInput))
  | pathStr (s : String)
  | tup (args : List Arg)
  | rgbList (elems : List BrainData)
  | other (desc : String)
deriving Repr

/-- normalize returns either a View or a Dataset. -/
def NormRes := View ⊕ Dataset

inductive LoadErr where
  | keyError
deriving DecidableEq, Repr

inductive NormErr where
  | unsupportedType
  | ioError
  | loadFail (e : LoadErr)
deriving DecidableEq, Repr

/-- Modelled from the spec: VolumeData built from a 3-tuple
(data, subject, xfm_or_params). -/
def VolumeData.ofArgs (d s x : Arg) : BrainData :=
  { oid := 0, name := "", subject := s.asStr, xfmname := some x.asStr,
    mask := .noMask, contents := d.asArr, variant := .volume }

/-- Modelled from the spec: VertexData built from a tuple of any other
length (data, subject, ...); vertex data carries no transform name. -/
def VertexData.ofArgs (args : List Arg) : BrainData :=
  { oid := 0, name := "",
    subject := (args.getD 1 (.str "")).asStr, xfmname := none,
    mask := .noMask, contents := (args.getD 0 (.arr [])).asArr,
    variant := .vertex }

/-- Modelled from the spec: BrainData.from_hdf — reconstruct a BrainData
from a stored node, raising KeyError when required metadata is missing
(braindata module not in src/). -/
def BrainData.from_hdf (dn : DNode) : Except LoadErr BrainData :=
  match dn with
  | some b => .ok b
  | none => .error .keyError

/-- Resolve one stored data reference against the /data region of the
file (the auxiliary source bound during loading). -/
def resolveRef (file : H5File) (r : String) : Except LoadErr BrainData :=
  match dictGet file.dataEntries r with
  | none => .error .keyError
  | some dn => BrainData.from_hdf dn

def resolveRefs (file : H5File) : List String → Except LoadErr (List BrainData)
  | [] => .ok []
  | r :: rs =>
    match resolveRef file r with
    | .error e => .error e
    | .ok b =>
      match resolveRefs file rs with
      | .error e => .error e
      | .ok bs => .ok (b :: bs)

/-- Modelled from the spec: DataView.from_hdf — reconstruct a stored view,
resolving its ordered data references through the file being loaded
(views module not in src/). -/
def DataView.from_hdf (file : H5File) (vn : VNode) : Except LoadErr View :=
  match resolveRefs file vn.refs with
  | .error e => .error e
  | .ok bs => .ok { channels := bs, priority := vn.priority, rgb := vn.rgb }

def warnMsg (n : String) : String :=
  "No metadata found for " ++ n ++ ", skipping..."

/-- First from_file loop: detect stray top-level entries not written by
pycortex, skipping the reserved names; a KeyError from reconstruction is
caught and turned into a warning. -/
def loadStray (views : List (String × View)) (warns : List String) :
    List (String × DNode) → List (String × View) × List String
  | [] => (views, warns)
  | (n, dn) :: rest =>
    if n ∈ reservedNames then loadStray views warns rest
    else
      match BrainData.from_hdf dn with
      | .ok b => loadStray (dictInsert views n (DataView b)) warns rest
      | .error _ => loadStray views (warns ++ [warnMsg n]) rest

/-- Second from_file loop: load the views generated by pycortex,
recording the names of the BrainData they consume.  Errors here are not
caught: they abort the load. -/
def loadViews (file : H5File) (views : List (String × View)) (loaded : List String) :
    List (String × VNode) → Except LoadErr (List (String × View) × List String)
  | [] => .ok (views, loaded)
  | (n, vn) :: rest =>
    match DataView.from_hdf file vn with
    | .error e => .error e
    | .ok v => loadViews file (dictInsert views n v) (loaded ++ v.channels.map (fun b => b.name)) rest

/-- Third from_file loop: catch any data objects that have no
corresponding view, with the same KeyError tolerance as the first loop. -/
def loadOrphans (loaded : List String) (views : List (String × View)) (warns : List String) :
    List (String × DNode) → List (String × View) × List String
  | [] => (views, warns)
  | (n, dn) :: rest =>
    if n ∈ loaded then loadOrphans loaded views warns rest
    else
      match BrainData.from_hdf dn with
      | .ok b => loadOrphans loaded (dictInsert views n (DataView b)) warns rest
      | .error _ => loadOrphans loaded views (warns ++ [warnMsg n]) rest

/-- Dataset.from_file.  Returns the load result, the warnings printed, and
the final value of the process-wide db.auxfile slot.  The source sets
db.auxfile = ds before the loops and assigns db.auxfile = None afterwards
in straight-line code (no try/finally), so an uncaught error from the
views loop leaves the slot bound. -/
def Dataset.from_file (file : H5File) :
    Except LoadErr Dataset × List String × Option H5File :=
  let s1 := loadStray [] [] file.topEntries
  match loadViews file s1.1 [] file.viewEntries with
  | .error e => (.error e, s1.2, some file)
  | .ok s2 =>
    let s3 := loadOrphans s2.2 s2.1 s1.2 file.dataEntries
    (.ok { views := s3.1, h5 := some file }, s3.2, none)

def emptyDataset : Dataset := { views := [], h5 := none }

/-- Apply one normalized value to the views dict, as Dataset.append does:
a View is stored under the given name, a Dataset has its views merged in
under their own names (the given name is discarded).  normalize never
returns a bare BrainData, so that branch of the source is not reachable. -/
def applyNorm (d : Dataset) (n : String) : NormRes → Dataset
  | .inl v => { d with views := dictInsert d.views n v }
  | .inr ds => { d with views := dictUpdate d.views ds.views }

mutual

/-- The normalize dispatch of src/cortex/dataset/__init__.py.  The fs
parameter is the file-system environment used to resolve path strings. -/
def normalize (fs : String → Option H5File) : NormInput → Except NormErr NormRes
  | .view v => .ok (.inl v)
  | .dset d => .ok (.inr d)
  | .bdata b => .ok (.inl (DataView b))
  | .dict entries =>
    match appendPairs fs emptyDataset entries with
    | .error e => .error e
    | .ok d => .ok (.inr d)
  | .pathStr s =>
    match fs s with
    | none => .error .ioError
    | some file =>
      match (Dataset.from_file file).1 with
      | .ok ds => .ok (.inr ds)
      | .error e => .error (.loadFail e)
  | .tup [d, s, x] => .ok (.inl (DataView (VolumeData.ofArgs d s x)))
  | .tup args => .ok (.inl (DataView (VertexData.ofArgs args)))
  | .rgbList elems =>
    match DataView.ofList elems with
    | some v => .ok (.inl v)
    | none => .error .unsupportedType
  | .other _ => .error .unsupportedType

/-- Dataset.append over a list of keyword arguments in order; also the body
of Dataset.__init__, which starts from an empty views dict. -/
def appendPairs (fs : String → Option H5File) (d : Dataset) :
    List (String × NormInput) → Except NormErr Dataset
  | [] => .ok d
  | (n, x) :: rest =>
    match normalize fs x with
    | .error e => .error e
    | .ok r => appendPairs fs (applyNorm d n r) rest

end

/-- The sort key of Dataset.__iter__: ascending View priority. -/
def viewLE (a b : String × View) : Prop := a.2.priority ≤ b.2.priority

instance : DecidableRel viewLE := fun a b => Nat.decLe a.2.priority b.2.priority

instance : IsTotal (String × View) viewLE := ⟨fun a b => Nat.le_total a.2.priority b.2.priority⟩

instance : IsTrans (String × View) viewLE := ⟨fun _ _ _ h h' => Nat.le_trans h h'⟩

/-- Dataset.__iter__: yield the (name, view) pairs sorted by view
priority.  Python sorted() is a stable sort by key; insertion sort over
the insertion-ordered views dict realises the same function. -/
def Dataset.iterOrder (ds : Dataset) : List (String × View) :=
  List.insertionSort viewLE ds.views

/-- Python set.add over the content-identity key of BrainData: adding an
element whose key is already present leaves the set unchanged (the first
inserted object is kept). -/
def addUnique (acc : List BrainData) (b : BrainData) : List BrainData :=
  if acc.any (fun a => bdKey a = bdKey b) then acc else acc ++ [b]

/-- Dataset.uniques: iterate the dataset (sorted order), iterate each
view's BrainData, and collect them into a set keyed by the identity rule. -/
def Dataset.uniques (ds : Dataset) : List BrainData :=
  (ds.iterOrder.flatMap (fun p => p.2.channels)).foldl addUnique []

/-- All BrainData of all views in views-dict order, as the save path walks
them (for view in self.views, for data in view). -/
def Dataset.allData (ds : Dataset) : List BrainData :=
  ds.views.flatMap (fun p => p.2.channels)

/-- Modelled from the spec: the /data region written by save — one entry
per unique BrainData under the identity rule, deduplication performed
once per save by _write_hdf (braindata module not in src/). -/
def Dataset.saveDataEntries (ds : Dataset) : List BrainData :=
  ds.allData.foldl addUnique []

/-- The subject set collected by save when pack=True. -/
def Dataset.packSubjs (ds : Dataset) : List String :=
  (ds.allData.map (fun b => b.subject)).dedup

/-- The (subject, xfmname) set collected by save when pack=True. -/
def Dataset.packXfms (ds : Dataset) : List (String × Option String) :=
  (ds.allData.map (fun b => (b.subject, b.xfmname))).dedup

/-- The (subject, xfmname, maskname) set collected by save when pack=True:
only masks referenced by a string name are added. -/
def Dataset.packMasks (ds : Dataset) : List (String × Option String × String) :=
  (ds.allData.filterMap (fun b =>
    match b.mask with
    | .named m => some (b.subject, b.xfmname, m)
    | _ => none)).dedup

inductive SaveErr where
  | unboundFile
deriving DecidableEq, Repr

/-- What one save call writes: the views region, the deduplicated data
region, and (when packing) the collected pack keys. -/
structure SaveOut where
  viewsWritten : List (String × View)
  dataWritten : List BrainData
  packedSubjs : List String
  packedXfms : List (String × Option String)
  packedMasks : List (String × Option String × String)
deriving DecidableEq, Repr

/-- Dataset.save: resolve the backing file (a filename binds a new file;
with neither a filename nor a previously bound file it raises ValueError
before anything is written), write every view and its deduplicated
BrainData, and collect the pack sets when pack=True. -/
def Dataset.save (ds : Dataset) (filename : Option String) (pack : Bool) :
    Except SaveErr (Dataset × SaveOut) :=
  match filename, ds.h5 with
  | none, none => .error .unboundFile
  | _, _ =>
    let bound : Dataset :=
      match filename with
      | some _ => { ds with h5 := some { topEntries := [], viewEntries := [], dataEntries := [] } }
      | none => ds
    .ok (bound,
      { viewsWritten := ds.views
        dataWritten := ds.saveDataEntries
        packedSubjs := if pack then ds.packSubjs else []
        packedXfms := if pack then ds.packXfms else []
        packedMasks := if pack then ds.packMasks else [] })

/-- Dataset.prepend: build a dict mapping prefix+name to each view (in
iteration order) and construct a new Dataset from it; self is only read.
The result pairs the (unchanged) receiver with the new Dataset. -/
def Dataset.prependS (ds : Dataset) (pre : String) : Dataset × Dataset :=
  let d := ds.iterOrder.map (fun p => (pre ++ p.1, NormInput.view p.2))
  match appendPairs (fun _ => none) emptyDataset d with
  | .ok newDs => (ds, newDs)
  | .error _ => (ds, emptyDataset)

/-! ### Dictionary lemmas -/

theorem dictGet_of_forall_ne {m : List (String × α)} {k : String}
    (h : ∀ p ∈ m, p.1 ≠ k) : dictGet m k = none := by
  induction m with
  | nil => rfl
  | cons a rest ih =>
    have ha : a.1 ≠ k := h a (List.mem_cons_self a rest)
    simp only [dictGet, if_neg ha]
    exact ih (fun p hp => h p (List.mem_cons_of_mem a hp))

theorem dictGet_append (m₁ m₂ : List (String × α)) (k : String) :
    dictGet (m₁ ++ m₂) k =
      match dictGet m₁ k with
      | some v => some v
      | none => dictGet m₂ k := by
  induction m₁ with
  | nil => simp [dictGet]
  | cons a rest ih =>
    by_cases ha : a.1 = k
    · simp [dictGet, ha]
    · simp [dictGet, ha, ih]

theorem dictGet_mapReplace (m : List (String × α)) (k : String) (v : α)
    (h : m.any (fun p => p.1 = k) = true) :
    dictGet (m.map (fun p => if p.1 = k then (k, v) else p)) k = some v := by
  induction m with
  | nil => simp at h
  | cons a rest ih =>
    by_cases ha : a.1 = k
    · simp only [List.map_cons, if_pos ha]
      simp [dictGet]
    · have hrest : rest.any (fun p => decide (p.1 = k)) = true := by
        simpa [List.any_cons, ha] using h
      simp only [List.map_cons, if_neg ha]
      simp [dictGet, ha, ih hrest]

theorem dictGet_dictInsert_self (m : List (String × α)) (k : String) (v : α) :
    dictGet (dictInsert m k v) k = some v := by
  unfold dictInsert
  by_cases h : m.any (fun p => decide (p.1 = k)) = true
  · simp only [h, if_pos]
    exact dictGet_mapReplace m k v h
  · simp only [h]
    have hne : ∀ p ∈ m, p.1 ≠ k := by
      intro p hp
      by_contra hc
      exact h (List.any_eq_true.mpr ⟨p, hp, by simp [hc]⟩)
    simp only [Bool.false_eq_true, if_neg, ite_false]
    rw [dictGet_append, dictGet_of_forall_ne hne]
    simp [dictGet]

theorem dictGet_mapReplace_ne (m : List (String × α)) (k k' : String) (v : α)
    (hne : k' ≠ k) :
    dictGet (m.map (fun p => if p.1 = k then (k, v) else p)) k' = dictGet m k' := by
  induction m with
  | nil => rfl
  | cons a rest ih =>
    by_cases ha : a.1 = k
    · have hk : k ≠ k' := fun hc => hne hc.symm
      have ha' : a.1 ≠ k' := by rw [ha]; exact hk
      simp only [List.map_cons, if_pos ha]
      simp [dictGet, hk, ha', ih]
    · simp only [List.map_cons, if_neg ha]
      by_cases ha' : a.1 = k'
      · simp [dictGet, ha']
      · simp [dictGet, ha', ih]

theorem dictGet_dictInsert_ne (m : List (String × α)) (k k' : String) (v : α)
    (hne : k' ≠ k) : dictGet (dictInsert m k v) k' = dictGet m k' := by
  unfold dictInsert
  by_cases h : m.any (fun p => decide (p.1 = k)) = true
  · simp only [h, if_pos]
    exact dictGet_mapReplace_ne m k k' v hne
  · simp only [h, Bool.false_eq_true, if_neg, ite_false]
    rw [dictGet_append]
    have hkk : k ≠ k' := fun hc => hne hc.symm
    match hm : dictGet m k' with
    | some v' => simp
    | none => simp [dictGet, hkk]

theorem dictGet_of_mem_nodup {m : List (String × α)} {k : String} {v : α}
    (hmem : (k, v) ∈ m) (hnd : (m.map Prod.fst).Nodup) : dictGet m k = some v := by
  induction m with
  | nil => cases hmem
  | cons a rest ih =>
    rcases List.mem_cons.mp hmem with heq | hrest
    · subst heq
      simp [dictGet]
    · have ha : a.1 ≠ k := by
        intro hc
        have : k ∈ rest.map Prod.fst := List.mem_map_of_mem Prod.fst hrest
        rw [List.map_cons, List.nodup_cons] at hnd
        exact hnd.1 (hc ▸ this)
      rw [List.map_cons, List.nodup_cons] at hnd
      simp [dictGet, ha, ih hrest hnd.2]

theorem dictGet_dictUpdate_of_forall_ne (m other : List (String × α)) (k : String)
    (h : ∀ p ∈ other, p.1 ≠ k) :
    dictGet (dictUpdate m other) k = dictGet m k := by
  induction other generalizing m with
  | nil => rfl
  | cons a rest ih =>
    have ha : a.1 ≠ k := h a (List.mem_cons_self a rest)
    show dictGet (dictUpdate (dictInsert m a.1 a.2) rest) k = dictGet m k
    rw [ih (dictInsert m a.1 a.2) (fun p hp => h p (List.mem_cons_of_mem a hp))]
    exact dictGet_dictInsert_ne m a.1 k a.2 (fun hc => ha hc.symm)

theorem dictGet_dictUpdate_of_mem (m other : List (String × α)) (k : String) (v : α)
    (hnd : (other.map Prod.fst).Nodup) (hmem : dictGet other k = some v) :
    dictGet (dictUpdate m other) k = some v := by
  induction other generalizing m with
  | nil => cases hmem
  | cons a rest ih =>
    rw [List.map_cons, List.nodup_cons] at hnd
    show dictGet (dictUpdate (dictInsert m a.1 a.2) rest) k = some v
    by_cases ha : a.1 = k
    · have hv : v = a.2 := by
        simp [dictGet, ha] at hmem
        exact hmem.symm
      have hfresh : ∀ p ∈ rest, p.1 ≠ k := by
        intro p hp hc
        exact hnd.1 (ha ▸ hc ▸ List.mem_map_of_mem Prod.fst hp)
      rw [dictGet_dictUpdate_of_forall_ne _ _ _ hfresh, hv, ← ha]
      exact dictGet_dictInsert_self m a.1 a.2
    · have hmem' : dictGet rest k = some v := by simpa [dictGet, ha] using hmem
      exact ih (dictInsert m a.1 a.2) hnd.2 hmem'

theorem dictInsert_of_fresh (m : List (String × α)) (k : String) (v : α)
    (h : ∀ p ∈ m, p.1 ≠ k) : dictInsert m k v = m ++ [(k, v)] := by
  unfold dictInsert
  have : m.any (fun p => decide (p.1 = k)) = false := by
    rw [List.any_eq_false]
    intro p hp
    simp [h p hp]
  simp [this]

theorem dictUpdate_of_disjoint (m other : List (String × α))
    (hdisj : ∀ p ∈ other, ∀ q ∈ m, q.1 ≠ p.1)
    (hnd : (other.map Prod.fst).Nodup) : dictUpdate m other = m ++ other := by
  induction other generalizing m with
  | nil => simp [dictUpdate]
  | cons a rest ih =>
    rw [List.map_cons, List.nodup_cons] at hnd
    show dictUpdate (dictInsert m a.1 a.2) rest = m ++ a :: rest
    rw [dictInsert_of_fresh m a.1 a.2 (hdisj a (List.mem_cons_self a rest))]
    rw [ih (m ++ [(a.1, a.2)]) ?_ hnd.2]
    · simp
    · intro p hp q hq
      rcases List.mem_append.mp hq with hm | hone
      · exact hdisj p (List.mem_cons_of_mem a hp) q hm
      · have : q = (a.1, a.2) := by simpa using hone
        subst this
        intro hc
        exact hnd.1 (hc ▸ List.mem_map_of_mem Prod.fst hp)

/-! ### from_file loop lemmas -/

/-- The warnings the stray-entry loop emits: one per non-reserved entry
whose metadata is missing. -/
def strayWarns : List (String × DNode) → List String
  | [] => []
  | (n, dn) :: rest =>
    if n ∈ reservedNames then strayWarns rest
    else
      match dn with
      | some _ => strayWarns rest
      | none => warnMsg n :: strayWarns rest

theorem loadStray_warns (l : List (String × DNode)) :
    ∀ views warns, (loadStray views warns l).2 = warns ++ strayWarns l := by
  induction l with
  | nil => intro views warns; simp [loadStray, strayWarns]
  | cons a rest ih =>
    intro views warns
    obtain ⟨n, dn⟩ := a
    by_cases hr : n ∈ reservedNames
    · simp [loadStray, strayWarns, hr, ih]
    · match dn with
      | some b => simp [loadStray, strayWarns, hr, BrainData.from_hdf, ih]
      | none => simp [loadStray, strayWarns, hr, BrainData.from_hdf, ih]

theorem mem_strayWarns {l : List (String × DNode)} {n : String}
    (hmem : (n, (none : DNode)) ∈ l) (hr : n ∉ reservedNames) :
    warnMsg n ∈ strayWarns l := by
  induction l with
  | nil => cases hmem
  | cons a rest ih =>
    obtain ⟨n', dn'⟩ := a
    rcases List.mem_cons.mp hmem with heq | hrest
    · obtain ⟨h1, h2⟩ := Prod.mk.injEq .. ▸ heq
      cases h1
      cases h2
      simp [strayWarns, hr]
    · by_cases hr' : n' ∈ reservedNames
      · simpa [strayWarns, hr'] using ih hrest
      · match dn' with
        | some _ => simpa [strayWarns, hr'] using ih hrest
        | none => simp [strayWarns, hr', ih hrest]

theorem loadStray_get_of_forall_ne (l : List (String × DNode)) (k : String)
    (h : ∀ p ∈ l, p.1 ≠ k) :
    ∀ views warns, dictGet (loadStray views warns l).1 k = dictGet views k := by
  induction l with
  | nil => intro views warns; rfl
  | cons a rest ih =>
    intro views warns
    obtain ⟨n, dn⟩ := a
    have hn : n ≠ k := h (n, dn) (List.mem_cons_self _ _)
    have hrest : ∀ p ∈ rest, p.1 ≠ k := fun p hp => h p (List.mem_cons_of_mem _ hp)
    by_cases hr : n ∈ reservedNames
    · simp only [loadStray, hr, if_pos]
      exact ih hrest views warns
    · match dn with
      | some b =>
        simp only [loadStray, hr, Bool.false_eq_true, if_neg, ite_false, BrainData.from_hdf]
        rw [ih hrest _ warns, dictGet_dictInsert_ne _ _ _ _ (fun hc => hn hc.symm)]
      | none =>
        simp only [loadStray, hr, Bool.false_eq_true, if_neg, ite_false, BrainData.from_hdf]
        exact ih hrest views _

theorem loadStray_get_found (l : List (String × DNode)) (k : String) (b : BrainData)
    (hnd : (l.map Prod.fst).Nodup) (hmem : (k, some b) ∈ l) (hr : k ∉ reservedNames) :
    ∀ views warns, dictGet (loadStray views warns l).1 k = some (DataView b) := by
  induction l with
  | nil => cases hmem
  | cons a rest ih =>
    intro views warns
    obtain ⟨n, dn⟩ := a
    rw [List.map_cons, List.nodup_cons] at hnd
    rcases List.mem_cons.mp hmem with heq | hrest
    · injection heq with h1 h2
      subst h1
      subst h2
      have hfresh : ∀ p ∈ rest, p.1 ≠ k := by
        intro p hp hc
        have hmm : p.1 ∈ rest.map Prod.fst := List.mem_map_of_mem Prod.fst hp
        rw [hc] at hmm
        exact hnd.1 hmm
      simp only [loadStray, hr, Bool.false_eq_true, if_neg, ite_false, BrainData.from_hdf]
      rw [loadStray_get_of_forall_ne rest k hfresh _ warns, dictGet_dictInsert_self]
    · by_cases hr' : n ∈ reservedNames
      · simp only [loadStray, hr', if_pos]
        exact ih hnd.2 hrest views warns
      · match dn with
        | some b' =>
          simp only [loadStray, hr', Bool.false_eq_true, if_neg, ite_false,
            BrainData.from_hdf]
          exact ih hnd.2 hrest _ warns
        | none =>
          simp only [loadStray, hr', Bool.false_eq_true, if_neg, ite_false,
            BrainData.from_hdf]
          exact ih hnd.2 hrest views _

theorem loadStray_get_missing (l : List (String × DNode)) (k : String)
    (hnd : (l.map Prod.fst).Nodup) (hmem : (k, (none : DNode)) ∈ l) :
    ∀ views warns, dictGet (loadStray views warns l).1 k = dictGet views k := by
  induction l with
  | nil => cases hmem
  | cons a rest ih =>
    intro views warns
    obtain ⟨n, dn⟩ := a
    rw [List.map_cons, List.nodup_cons] at hnd
    rcases List.mem_cons.mp hmem with heq | hrest
    · injection heq with h1 h2
      subst h1
      subst h2
      have hfresh : ∀ p ∈ rest, p.1 ≠ k := by
        intro p hp hc
        have hmm : p.1 ∈ rest.map Prod.fst := List.mem_map_of_mem Prod.fst hp
        rw [hc] at hmm
        exact hnd.1 hmm
      by_cases hr : k ∈ reservedNames
      · simp only [loadStray, hr, if_pos]
        exact loadStray_get_of_forall_ne rest k hfresh views warns
      · simp only [loadStray, hr, Bool.false_eq_true, if_neg, ite_false, BrainData.from_hdf]
        exact loadStray_get_of_forall_ne rest k hfresh views _
    · by_cases hr' : n ∈ reservedNames
      · simp only [loadStray, hr', if_pos]
        exact ih hnd.2 hrest views warns
      · match dn with
        | some b' =>
          simp only [loadStray, hr', Bool.false_eq_true, if_neg, ite_false,
            BrainData.from_hdf]
          rw [ih hnd.2 hrest _ warns]
          apply dictGet_dictInsert_ne
          intro hc
          apply hnd.1
          rw [← hc]
          have hmm := List.mem_map_of_mem Prod.fst hrest
          exact hmm
        | none =>
          simp only [loadStray, hr', Bool.false_eq_true, if_neg, ite_false,
            BrainData.from_hdf]
          exact ih hnd.2 hrest views _

/-- The views a successful pass over /views reconstructs, in order. -/
def resolvedViews (file : H5File) (l : List (String × VNode)) : List (String × View) :=
  l.filterMap (fun p =>
    match DataView.from_hdf file p.2 with
    | .ok v => some (p.1, v)
    | .error _ => none)

/-- The BrainData names consumed by the /views entries (the loaded set). -/
def loadedNames (file : H5File) (l : List (String × VNode)) : List String :=
  l.flatMap (fun p =>
    match DataView.from_hdf file p.2 with
    | .ok v => v.channels.map (fun b => b.name)
    | .error _ => [])

theorem loadViews_ok (file : H5File) (l : List (String × VNode))
    (hok : ∀ p ∈ l, ∃ v, DataView.from_hdf file p.2 = .ok v) :
    ∀ views loaded, loadViews file views loaded l =
      .ok (dictUpdate views (resolvedViews file l), loaded ++ loadedNames file l) := by
  induction l with
  | nil => intro views loaded; simp [loadViews, resolvedViews, loadedNames, dictUpdate]
  | cons a rest ih =>
    intro views loaded
    obtain ⟨n, vn⟩ := a
    obtain ⟨v, hv⟩ := hok (n, vn) (List.mem_cons_self _ _)
    have hrest : ∀ p ∈ rest, ∃ w, DataView.from_hdf file p.2 = .ok w :=
      fun p hp => hok p (List.mem_cons_of_mem _ hp)
    simp only [loadViews, hv]
    rw [ih hrest]
    have hres : resolvedViews file ((n, vn) :: rest) = (n, v) :: resolvedViews file rest := by
      simp [resolvedViews, hv]
    have hload : loadedNames file ((n, vn) :: rest) =
        v.channels.map (fun b => b.name) ++ loadedNames file rest := by
      simp [loadedNames, hv]
    rw [hres, hload]
    have hupd : dictUpdate views ((n, v) :: resolvedViews file rest) =
        dictUpdate (dictInsert views n v) (resolvedViews file rest) := rfl
    rw [hupd, List.append_assoc]

theorem loadViews_error (file : H5File) (l : List (String × VNode))
    (hbad : ¬ ∀ p ∈ l, ∃ v, DataView.from_hdf file p.2 = .ok v) :
    ∀ views loaded, ∃ e, loadViews file views loaded l = .error e := by
  induction l with
  | nil => exact absurd (by simp) hbad
  | cons a rest ih =>
    intro views loaded
    obtain ⟨n, vn⟩ := a
    match hv : DataView.from_hdf file vn with
    | .error e => exact ⟨e, by simp [loadViews, hv]⟩
    | .ok v =>
      have hrest : ¬ ∀ p ∈ rest, ∃ w, DataView.from_hdf file p.2 = .ok w := by
        intro hall
        apply hbad
        intro p hp
        rcases List.mem_cons.mp hp with heq | hmem
        · exact heq ▸ ⟨v, hv⟩
        · exact hall p hmem
      obtain ⟨e, he⟩ := ih hrest (dictInsert views n v)
        (loaded ++ v.channels.map (fun b => b.name))
      exact ⟨e, by simp [loadViews, hv, he]⟩

theorem resolvedViews_keys (file : H5File) (l : List (String × VNode))
    (hok : ∀ p ∈ l, ∃ v, DataView.from_hdf file p.2 = .ok v) :
    (resolvedViews file l).map Prod.fst = l.map Prod.fst := by
  induction l with
  | nil => rfl
  | cons a rest ih =>
    obtain ⟨v, hv⟩ := hok a (List.mem_cons_self _ _)
    have hrest : ∀ p ∈ rest, ∃ w, DataView.from_hdf file p.2 = .ok w :=
      fun p hp => hok p (List.mem_cons_of_mem _ hp)
    have hstep : resolvedViews file (a :: rest) = (a.1, v) :: resolvedViews file rest := by
      simp [resolvedViews, hv]
    rw [hstep, List.map_cons, List.map_cons, ih hrest]

theorem mem_resolvedViews {file : H5File} {l : List (String × VNode)}
    {n : String} {vn : VNode} {v : View}
    (hmem : (n, vn) ∈ l) (hv : DataView.from_hdf file vn = .ok v) :
    (n, v) ∈ resolvedViews file l := by
  induction l with
  | nil => cases hmem
  | cons a rest ih =>
    rcases List.mem_cons.mp hmem with heq | hrest
    · subst heq
      simp [resolvedViews, hv]
    · match ha : DataView.from_hdf file a.2 with
      | .ok w => simpa [resolvedViews, ha] using Or.inr (by simpa [resolvedViews] using ih hrest)
      | .error e => simpa [resolvedViews, ha] using ih hrest

/-- The warnings the orphan loop emits. -/
def orphanWarns (loaded : List String) : List (String × DNode) → List String
  | [] => []
  | (n, dn) :: rest =>
    if n ∈ loaded then orphanWarns loaded rest
    else
      match dn with
      | some _ => orphanWarns loaded rest
      | none => warnMsg n :: orphanWarns loaded rest

theorem loadOrphans_warns (loaded : List String) (l : List (String × DNode)) :
    ∀ views warns, (loadOrphans loaded views warns l).2 = warns ++ orphanWarns loaded l := by
  induction l with
  | nil => intro views warns; simp [loadOrphans, orphanWarns]
  | cons a rest ih =>
    intro views warns
    obtain ⟨n, dn⟩ := a
    by_cases hl : n ∈ loaded
    · simp [loadOrphans, orphanWarns, hl, ih]
    · match dn with
      | some b => simp [loadOrphans, orphanWarns, hl, BrainData.from_hdf, ih]
      | none => simp [loadOrphans, orphanWarns, hl, BrainData.from_hdf, ih]

theorem mem_orphanWarns {loaded : List String} {l : List (String × DNode)} {n : String}
    (hmem : (n, (none : DNode)) ∈ l) (hl : n ∉ loaded) :
    warnMsg n ∈ orphanWarns loaded l := by
  induction l with
  | nil => cases hmem
  | cons a rest ih =>
    obtain ⟨n', dn'⟩ := a
    rcases List.mem_cons.mp hmem with heq | hrest
    · obtain ⟨h1, h2⟩ := Prod.mk.injEq .. ▸ heq
      cases h1
      cases h2
      simp [orphanWarns, hl]
    · by_cases hl' : n' ∈ loaded
      · simpa [orphanWarns, hl'] using ih hrest
      · match dn' with
        | some _ => simpa [orphanWarns, hl'] using ih hrest
        | none => simp [orphanWarns, hl', ih hrest]

theorem loadOrphans_get_of_forall_ne (loaded : List String) (l : List (String × DNode))
    (k : String) (h : ∀ p ∈ l, p.1 ≠ k) :
    ∀ views warns, dictGet (loadOrphans loaded views warns l).1 k = dictGet views k := by
  induction l with
  | nil => intro views warns; rfl
  | cons a rest ih =>
    intro views warns
    obtain ⟨n, dn⟩ := a
    have hn : n ≠ k := h (n, dn) (List.mem_cons_self _ _)
    have hrest : ∀ p ∈ rest, p.1 ≠ k := fun p hp => h p (List.mem_cons_of_mem _ hp)
    by_cases hl : n ∈ loaded
    · simp only [loadOrphans, hl, if_pos]
      exact ih hrest views warns
    · match dn with
      | some b =>
        simp only [loadOrphans, hl, Bool.false_eq_true, if_neg, ite_false,
          BrainData.from_hdf]
        rw [ih hrest _ warns, dictGet_dictInsert_ne _ _ _ _ (fun hc => hn hc.symm)]
      | none =>
        simp only [loadOrphans, hl, Bool.false_eq_true, if_neg, ite_false,
          BrainData.from_hdf]
        exact ih hrest views _

theorem loadOrphans_get_found (loaded : List String) (l : List (String × DNode))
    (k : String) (b : BrainData)
    (hnd : (l.map Prod.fst).Nodup) (hmem : (k, some b) ∈ l) (hl : k ∉ loaded) :
    ∀ views warns, dictGet (loadOrphans loaded views warns l).1 k = some (DataView b) := by
  induction l with
  | nil => cases hmem
  | cons a rest ih =>
    intro views warns
    obtain ⟨n, dn⟩ := a
    rw [List.map_cons, List.nodup_cons] at hnd
    rcases List.mem_cons.mp hmem with heq | hrest
    · injection heq with h1 h2
      subst h1
      subst h2
      have hfresh : ∀ p ∈ rest, p.1 ≠ k := by
        intro p hp hc
        have hmm : p.1 ∈ rest.map Prod.fst := List.mem_map_of_mem Prod.fst hp
        rw [hc] at hmm
        exact hnd.1 hmm
      simp only [loadOrphans, hl, Bool.false_eq_true, if_neg, ite_false,
        BrainData.from_hdf]
      rw [loadOrphans_get_of_forall_ne loaded rest k hfresh _ warns, dictGet_dictInsert_self]
    · by_cases hl' : n ∈ loaded
      · simp only [loadOrphans, hl', if_pos]
        exact ih hnd.2 hrest views warns
      · match dn with
        | some b' =>
          simp only [loadOrphans, hl', Bool.false_eq_true, if_neg, ite_false,
            BrainData.from_hdf]
          exact ih hnd.2 hrest _ warns
        | none =>
          simp only [loadOrphans, hl', Bool.false_eq_true, if_neg, ite_false,
            BrainData.from_hdf]
          exact ih hnd.2 hrest views _

theorem loadOrphans_get_missing (loaded : List String) (l : List (String × DNode))
    (k : String) (hnd : (l.map Prod.fst).Nodup) (hmem : (k, (none : DNode)) ∈ l) :
    ∀ views warns, dictGet (loadOrphans loaded views warns l).1 k = dictGet views k := by
  induction l with
  | nil => cases hmem
  | cons a rest ih =>
    intro views warns
    obtain ⟨n, dn⟩ := a
    rw [List.map_cons, List.nodup_cons] at hnd
    rcases List.mem_cons.mp hmem with heq | hrest
    · injection heq with h1 h2
      subst h1
      subst h2
      have hfresh : ∀ p ∈ rest, p.1 ≠ k := by
        intro p hp hc
        have hmm : p.1 ∈ rest.map Prod.fst := List.mem_map_of_mem Prod.fst hp
        rw [hc] at hmm
        exact hnd.1 hmm
      by_cases hl : k ∈ loaded
      · simp only [loadOrphans, hl, if_pos]
        exact loadOrphans_get_of_forall_ne loaded rest k hfresh views warns
      · simp only [loadOrphans, hl, Bool.false_eq_true, if_neg, ite_false,
          BrainData.from_hdf]
        exact loadOrphans_get_of_forall_ne loaded rest k hfresh views _
    · by_cases hl' : n ∈ loaded
      · simp only [loadOrphans, hl', if_pos]
        exact ih hnd.2 hrest views warns
      · match dn with
        | some b' =>
          simp only [loadOrphans, hl', Bool.false_eq_true, if_neg, ite_false,
            BrainData.from_hdf]
          rw [ih hnd.2 hrest _ warns]
          apply dictGet_dictInsert_ne
          intro hc
          apply hnd.1
          rw [← hc]
          have hmm := List.mem_map_of_mem Prod.fst hrest
          exact hmm
        | none =>
          simp only [loadOrphans, hl', Bool.false_eq_true, if_neg, ite_false,
            BrainData.from_hdf]
          exact ih hnd.2 hrest views _

/-! ### Set (addUnique) lemmas -/

/-- Number of elements of a collected set that carry a given identity key. -/
def countKey (k : String × Option String × MaskRef × List Int) (l : List BrainData) : Nat :=
  l.countP (fun b => decide (bdKey b = k))

theorem countKey_addUnique (acc : List BrainData) (b : BrainData) (k)
    (hinv : ∀ k', countKey k' acc ≤ 1) :
    countKey k (addUnique acc b) = if bdKey b = k then 1 else countKey k acc := by
  unfold addUnique
  by_cases h : acc.any (fun a => decide (bdKey a = bdKey b)) = true
  · simp only [h, if_pos]
    obtain ⟨a, ha, hab⟩ := List.any_eq_true.mp h
    have hab' : bdKey a = bdKey b := of_decide_eq_true hab
    by_cases hk : bdKey b = k
    · have h1 : 1 ≤ countKey k acc := by
        have : a ∈ acc.filter (fun x => decide (bdKey x = k)) :=
          List.mem_filter.mpr ⟨ha, by simp [hab', hk]⟩
        have hlen : 0 < (acc.filter (fun x => decide (bdKey x = k))).length :=
          List.length_pos.mpr (List.ne_nil_of_mem this)
        simpa [countKey, List.countP_eq_length_filter] using hlen
      have h2 := hinv k
      simp only [hk, if_pos]
      omega
    · simp [hk]
  · simp only [h, Bool.false_eq_true, if_neg, ite_false]
    have hz : countKey (bdKey b) acc = 0 := by
      rw [countKey, List.countP_eq_zero]
      intro a ha hc
      exact h (List.any_eq_true.mpr ⟨a, ha, by simpa using hc⟩)
    by_cases hk : bdKey b = k
    · subst hk
      have h1 : countKey (bdKey b) (acc ++ [b]) =
          countKey (bdKey b) acc + countKey (bdKey b) [b] := by
        simp [countKey, List.countP_append]
      rw [h1, hz]
      simp [countKey]
    · simp [countKey, List.countP_append, hk]

theorem countKey_addUnique_le (acc : List BrainData) (b : BrainData)
    (hinv : ∀ k', countKey k' acc ≤ 1) : ∀ k', countKey k' (addUnique acc b) ≤ 1 := by
  intro k'
  rw [countKey_addUnique acc b k' hinv]
  by_cases hk : bdKey b = k'
  · simp [hk]
  · simpa [hk] using hinv k'

theorem countKey_foldl_addUnique (l : List BrainData) :
    ∀ acc, (∀ k', countKey k' acc ≤ 1) → ∀ k,
      countKey k (l.foldl addUnique acc) =
        if l.any (fun b => decide (bdKey b = k)) then 1 else countKey k acc := by
  induction l with
  | nil => intro acc _ k; simp
  | cons b rest ih =>
    intro acc hinv k
    have hstep := countKey_addUnique acc b k hinv
    have hinv' := countKey_addUnique_le acc b hinv
    rw [List.foldl_cons, ih (addUnique acc b) hinv' k]
    by_cases hb : bdKey b = k
    · by_cases hr : rest.any (fun x => decide (bdKey x = k)) = true
      · simp [hr, hb]
      · simp only [List.any_cons, hb]
        simp [hr, hstep, hb]
    · by_cases hr : rest.any (fun x => decide (bdKey x = k)) = true
      · simp [hr, hb]
      · simp only [List.any_cons]
        simp [hr, hstep, hb]

/-! ### Stable-sort lemmas -/

theorem iterOrder_perm (ds : Dataset) : List.Perm ds.iterOrder ds.views :=
  List.perm_insertionSort viewLE ds.views

theorem iterOrder_sorted (ds : Dataset) : List.Sorted viewLE ds.iterOrder :=
  List.sorted_insertionSort viewLE ds.views

/-- Stability: the subsequence of views with any fixed priority is
unchanged by the sort. -/
theorem iterOrder_filter_eq (ds : Dataset) (p : Nat) :
    ds.iterOrder.filter (fun x => x.2.priority == p) =
      ds.views.filter (fun x => x.2.priority == p) := by
  set q : String × View → Bool := fun x => x.2.priority == p with hq
  have hperm : List.Perm (ds.iterOrder.filter q) (ds.views.filter q) :=
    (iterOrder_perm ds).filter q
  have hpw : (ds.views.filter q).Pairwise viewLE := by
    apply List.pairwise_of_forall_mem_list
    intro a ha b hb
    have hap : a.2.priority = p := by simpa [hq] using (List.mem_filter.mp ha).2
    have hbp : b.2.priority = p := by simpa [hq] using (List.mem_filter.mp hb).2
    show a.2.priority ≤ b.2.priority
    rw [hap, hbp]
  have hsub : List.Sublist (ds.views.filter q) ds.iterOrder :=
    List.sublist_insertionSort hpw (List.filter_sublist ds.views)
  have hsub2 : List.Sublist ((ds.views.filter q).filter q) (ds.iterOrder.filter q) :=
    hsub.filter q
  rw [List.filter_filter] at hsub2
  have hff : (ds.views.filter (fun a => q a && q a)) = ds.views.filter q := by
    apply List.filter_congr
    intro x _
    cases q x <;> rfl
  rw [hff] at hsub2
  exact (hsub2.eq_of_length hperm.length_eq.symm).symm

/-! ### appendPairs on pure views -/

theorem appendPairs_views (fs : String → Option H5File) (d : Dataset)
    (l : List (String × View)) :
    appendPairs fs d (l.map (fun p => (p.1, NormInput.view p.2))) =
      .ok { views := dictUpdate d.views l, h5 := d.h5 } := by
  induction l generalizing d with
  | nil =>
    cases d
    simp [appendPairs, dictUpdate]
  | cons p rest ih =>
    simp only [List.map_cons, appendPairs, normalize, applyNorm]
    rw [ih]
    rfl

/-! ### Example values used by concrete instances -/

def exBD (i : Nat) : BrainData :=
  { oid := i, name := "bd" ++ toString i, subject := "S", xfmname := some "X",
    mask := .noMask, contents := [Int.ofNat i], variant := .volume }

def exV (p i : Nat) : View :=
  { channels := [exBD i], priority := p, rgb := false }

/-- A dataset whose views were inserted with priorities 5, 1, 5, 3. -/
def exDS : Dataset :=
  { views := [("a", exV 5 1), ("b", exV 1 2), ("c", exV 5 3), ("d", exV 3 4)],
    h5 := none }

def emptyFile : H5File := { topEntries := [], viewEntries := [], dataEntries := [] }

/-! ### Claim theorems -/

/-- C6: iterating a Dataset yields its (name, view) pairs sorted by
ascending View priority (a permutation of the views dict, sorted under
viewLE), with equal priorities keeping their relative insertion order
(the filter at any fixed priority is unchanged by the sort); in
particular views inserted with priorities [5, 1, 5, 3] iterate as
priority 1, then 3, then the first-inserted 5, then the second. -/
theorem c6_iteration_priority_stable :
    (∀ ds : Dataset, List.Sorted viewLE ds.iterOrder) ∧
    (∀ ds : Dataset, List.Perm ds.iterOrder ds.views) ∧
    (∀ (ds : Dataset) (p : Nat),
      ds.iterOrder.filter (fun x => x.2.priority == p) =
        ds.views.filter (fun x => x.2.priority == p)) ∧
    exDS.iterOrder = [("b", exV 1 2), ("d", exV 3 4), ("a", exV 5 1), ("c", exV 5 3)] :=
  ⟨iterOrder_sorted, iterOrder_perm, iterOrder_filter_eq, by decide⟩

/-- C7: prepend builds a new Dataset holding, for every view name n of the
receiver, the very same View value (hence the same underlying BrainData,
object identity included) under the name prefix+n, and returns with the
receiver unmodified. -/
theorem c7_prepend_shares_and_preserves (ds : Dataset) (pre : String)
    (hnd : (ds.views.map Prod.fst).Nodup) :
    (ds.prependS pre).1 = ds ∧
    ∀ n v, (n, v) ∈ ds.views →
      dictGet (ds.prependS pre).2.views (pre ++ n) = some v := by
  have hinj : Function.Injective (fun s : String => pre ++ s) := by
    intro a b h
    have hd := congrArg String.data h
    simp only [String.data_append] at hd
    exact String.ext (List.append_cancel_left hd)
  set l : List (String × View) := ds.iterOrder.map (fun p => (pre ++ p.1, p.2)) with hl
  have hmapmap : ds.iterOrder.map (fun p => (pre ++ p.1, NormInput.view p.2)) =
      l.map (fun p => (p.1, NormInput.view p.2)) := by
    rw [hl, List.map_map]
    rfl
  have hap : appendPairs (fun _ => none) emptyDataset
      (ds.iterOrder.map (fun p => (pre ++ p.1, NormInput.view p.2))) =
      .ok { views := dictUpdate emptyDataset.views l, h5 := emptyDataset.h5 } := by
    rw [hmapmap]
    exact appendPairs_views _ _ _
  have hkeys : (l.map Prod.fst).Nodup := by
    have h1 : l.map Prod.fst = (ds.iterOrder.map Prod.fst).map (fun s => pre ++ s) := by
      rw [hl, List.map_map, List.map_map]
      rfl
    have h2 : (ds.iterOrder.map Prod.fst).Nodup :=
      (((iterOrder_perm ds).map Prod.fst).nodup_iff).mpr hnd
    rw [h1]
    exact h2.map hinj
  have hupd : dictUpdate emptyDataset.views l = l := by
    have := dictUpdate_of_disjoint emptyDataset.views l
      (fun p _ q hq => absurd hq (List.not_mem_nil q)) hkeys
    simpa [emptyDataset] using this
  constructor
  · simp [Dataset.prependS, hap]
  · intro n v hmem
    have hmem' : (n, v) ∈ ds.iterOrder := ((iterOrder_perm ds).mem_iff).mpr hmem
    have hmeml : (pre ++ n, v) ∈ l := by
      rw [hl]
      exact List.mem_map_of_mem _ hmem'
    have hget : dictGet l (pre ++ n) = some v := dictGet_of_mem_nodup hmeml hkeys
    simp [Dataset.prependS, hap, hupd, hget]

/-- C7 witness: concrete instance of the prepend theorem. -/
theorem c7_witness :
    (exDS.prependS "a_").1 = exDS ∧
    dictGet (exDS.prependS "a_").2.views ("a_" ++ "a") = some (exV 5 1) :=
  ⟨(c7_prepend_shares_and_preserves exDS "a_" (by decide)).1,
   (c7_prepend_shares_and_preserves exDS "a_" (by decide)).2 "a" (exV 5 1) (by decide)⟩

/-- C8: save() with no filename on a Dataset never bound to a file raises
ValueError (UnboundFileError) and writes nothing; a supplied filename, or
an already-bound Dataset, avoids that error. -/
theorem c8_save_unbound (ds : Dataset) (fn : String) (file : H5File) (pack : Bool) :
    (ds.h5 = none → ds.save none pack = .error .unboundFile) ∧
    (∃ r, ds.save (some fn) pack = .ok r) ∧
    (ds.h5 = some file → ∃ r, ds.save none pack = .ok r) := by
  obtain ⟨dviews, dh5⟩ := ds
  refine ⟨fun h => ?_, ?_, fun h => ?_⟩
  · cases dh5 with
    | none => rfl
    | some f => exact Option.noConfusion h
  · cases dh5 with
    | none => exact ⟨_, rfl⟩
    | some f => exact ⟨_, rfl⟩
  · cases dh5 with
    | none => exact Option.noConfusion h
    | some f => exact ⟨_, rfl⟩

/-- A Dataset already bound to a backing file. -/
def boundDS : Dataset := { views := [], h5 := some emptyFile }

/-- C8 witness: concrete instance of the save/unbound theorem. -/
theorem c8_witness :
    emptyDataset.save none false = .error .unboundFile ∧
    (∃ r, emptyDataset.save (some "f.hdf") false = .ok r) ∧
    (∃ r, boundDS.save none false = .ok r) :=
  ⟨(c8_save_unbound emptyDataset "f.hdf" emptyFile false).1 rfl,
   (c8_save_unbound emptyDataset "f.hdf" emptyFile false).2.1,
   (c8_save_unbound boundDS "f.hdf" emptyFile false).2.2 rfl⟩

/-- C9: the sets collected for packing are exactly the subjects, the
(subject, transform) pairs, and — only for masks referenced by a string
name — the (subject, transform, maskname) triples of the BrainData
reachable from the views; a BrainData with an inline mask array
contributes no mask triple. -/
theorem c9_pack_sets (ds : Dataset) (s : String) (x : Option String) (m : String) :
    (∀ b : BrainData, b ∈ ds.allData ↔ ∃ p ∈ ds.views, b ∈ p.2.channels) ∧
    (s ∈ ds.packSubjs ↔ ∃ b ∈ ds.allData, b.subject = s) ∧
    ((s, x) ∈ ds.packXfms ↔ ∃ b ∈ ds.allData, b.subject = s ∧ b.xfmname = x) ∧
    ((s, x, m) ∈ ds.packMasks ↔
      ∃ b ∈ ds.allData, b.subject = s ∧ b.xfmname = x ∧ b.mask = .named m) ∧
    ds.packMasks.Nodup := by
  refine ⟨?_, ?_, ?_, ?_, ?_⟩
  · intro b
    simp [Dataset.allData, List.mem_flatMap]
  · simp [Dataset.packSubjs, List.mem_dedup, List.mem_map]
  · simp [Dataset.packXfms, List.mem_dedup, List.mem_map, Prod.mk.injEq]
  · simp only [Dataset.packMasks, List.mem_dedup, List.mem_filterMap]
    constructor
    · rintro ⟨b, hb, hmatch⟩
      match hmask : b.mask with
      | .noMask => rw [hmask] at hmatch; cases hmatch
      | .inline a => rw [hmask] at hmatch; cases hmatch
      | .named m' =>
        rw [hmask] at hmatch
        injection hmatch with h2
        injection h2 with hs hrest
        injection hrest with hx hm
        exact ⟨b, hb, hs, hx, by rw [hmask, hm]⟩
    · rintro ⟨b, hb, hs, hx, hm⟩
      exact ⟨b, hb, by rw [hm, hs, hx]⟩
  · exact (List.nodup_dedup _)

/-- C10: appending a keyword argument whose value normalizes to a Dataset
merges that Dataset's views into self under their own names (last write
wins) and discards the supplied keyword name. -/
theorem c10_append_dataset_merge (fs : String → Option H5File) (ds : Dataset)
    (kw : String) (x : NormInput) (d' : Dataset)
    (hx : normalize fs x = .ok (.inr d'))
    (hnd : (d'.views.map Prod.fst).Nodup) :
    appendPairs fs ds [(kw, x)] =
      .ok { views := dictUpdate ds.views d'.views, h5 := ds.h5 } ∧
    (∀ k v, dictGet d'.views k = some v →
      dictGet (dictUpdate ds.views d'.views) k = some v) ∧
    (kw ∉ d'.views.map Prod.fst →
      dictGet (dictUpdate ds.views d'.views) kw = dictGet ds.views kw) := by
  refine ⟨?_, ?_, ?_⟩
  · simp [appendPairs, hx, applyNorm]
  · intro k v hkv
    exact dictGet_dictUpdate_of_mem ds.views d'.views k v hnd hkv
  · intro hkw
    apply dictGet_dictUpdate_of_forall_ne
    intro p hp hc
    exact hkw (hc ▸ List.mem_map_of_mem Prod.fst hp)

/-- C10 witness: concrete instance of the append-merge theorem. -/
theorem c10_witness :
    appendPairs (fun _ => none) exDS [("kw", .dict [("inner", .bdata (exBD 9))])] =
      .ok { views := dictUpdate exDS.views [("inner", DataView (exBD 9))], h5 := none } ∧
    dictGet (dictUpdate exDS.views [("inner", DataView (exBD 9))]) "inner" =
      some (DataView (exBD 9)) ∧
    dictGet (dictUpdate exDS.views [("inner", DataView (exBD 9))]) "kw" =
      dictGet exDS.views "kw" := by
  have h := c10_append_dataset_merge (fun _ => none) exDS "kw"
    (.dict [("inner", .bdata (exBD 9))]) { views := [("inner", DataView (exBD 9))], h5 := none }
    rfl (by decide)
  exact ⟨h.1, h.2.1 "inner" (DataView (exBD 9)) rfl, h.2.2 (by decide)⟩

/-- C1: normalize dispatches by input shape — Views and Datasets pass
through unchanged, a BrainData is wrapped as a single-channel View, a
dict is recursively normalized into a Dataset, a path string loads a
Dataset from that file, a 3-tuple builds a VolumeData wrapped as a View,
a tuple of any other length builds a VertexData wrapped as a View, and
an unsupported input fails with UnsupportedTypeError (the TypeError of
the source). -/
theorem c1_normalize_dispatch (fs : String → Option H5File) :
    (∀ v, normalize fs (.view v) = .ok (.inl v)) ∧
    (∀ d, normalize fs (.dset d) = .ok (.inr d)) ∧
    (∀ b, normalize fs (.bdata b) = .ok (.inl (DataView b)) ∧ (DataView b).channels = [b]) ∧
    (∀ entries d', appendPairs fs emptyDataset entries = .ok d' →
      normalize fs (.dict entries) = .ok (.inr d')) ∧
    (∀ s file ds, fs s = some file → (Dataset.from_file file).1 = .ok ds →
      normalize fs (.pathStr s) = .ok (.inr ds)) ∧
    (∀ a b c, normalize fs (.tup [a, b, c]) =
      .ok (.inl (DataView (VolumeData.ofArgs a b c))) ∧
      (VolumeData.ofArgs a b c).variant = .volume) ∧
    (∀ args, args.length ≠ 3 →
      normalize fs (.tup args) = .ok (.inl (DataView (VertexData.ofArgs args))) ∧
      (VertexData.ofArgs args).variant = .vertex) ∧
    (∀ o, normalize fs (.other o) = .error .unsupportedType) := by
  refine ⟨fun v => rfl, fun d => rfl, fun b => ⟨rfl, rfl⟩, ?_, ?_, ?_, ?_, fun o => rfl⟩
  · intro entries d' h
    simp [normalize, h]
  · intro s file ds hfs hload
    simp [normalize, hfs, hload]
  · intro a b c
    exact ⟨rfl, rfl⟩
  · intro args h
    rcases args with _ | ⟨a, _ | ⟨b, _ | ⟨c, _ | ⟨d, rest⟩⟩⟩⟩
    · exact ⟨rfl, rfl⟩
    · exact ⟨rfl, rfl⟩
    · exact ⟨rfl, rfl⟩
    · exact absurd rfl h
    · exact ⟨rfl, rfl⟩

/-- C1 witness: concrete instances of the dispatch theorem, with each
hypothesis discharged on concrete inputs. -/
theorem c1_witness :
    normalize (fun _ => some emptyFile) (.dict [("n", .bdata (exBD 1))]) =
      .ok (.inr { views := [("n", DataView (exBD 1))], h5 := none }) ∧
    normalize (fun _ => some emptyFile) (.pathStr "p.hdf") =
      .ok (.inr { views := [], h5 := some emptyFile }) ∧
    normalize (fun _ => some emptyFile) (.tup [Arg.arr [1], Arg.str "S"]) =
      .ok (.inl (DataView (VertexData.ofArgs [Arg.arr [1], Arg.str "S"]))) ∧
    normalize (fun _ => some emptyFile) (.other "an int") = .error .unsupportedType := by
  refine ⟨?_, ?_, ?_, ?_⟩
  · exact (c1_normalize_dispatch (fun _ => some emptyFile)).2.2.2.1
      [("n", .bdata (exBD 1))] { views := [("n", DataView (exBD 1))], h5 := none } rfl
  · exact (c1_normalize_dispatch (fun _ => some emptyFile)).2.2.2.2.1
      "p.hdf" emptyFile { views := [], h5 := some emptyFile } rfl rfl
  · exact ((c1_normalize_dispatch (fun _ => some emptyFile)).2.2.2.2.2.2.1
      [Arg.arr [1], Arg.str "S"] (by decide)).1
  · exact (c1_normalize_dispatch (fun _ => some emptyFile)).2.2.2.2.2.2.2 "an int"

/-- C2: a list of length exactly three normalizes to an RGB composite
View whose three channels are the list elements; a list of any other
length is rejected as an unsupported shape. -/
theorem c2_rgb_list (fs : String → Option H5File) (elems : List BrainData) :
    (elems.length = 3 → normalize fs (.rgbList elems) =
      .ok (.inl { channels := elems, priority := defaultPriority, rgb := true })) ∧
    (elems.length ≠ 3 → normalize fs (.rgbList elems) = .error .unsupportedType) := by
  constructor
  · intro h
    simp [normalize, DataView.ofList, h]
  · intro h
    simp [normalize, DataView.ofList, h]

/-- C2 witness: concrete instances of the RGB-list theorem. -/
theorem c2_witness :
    normalize (fun _ => none) (.rgbList [exBD 1, exBD 2, exBD 3]) =
      .ok (.inl (View.mk [exBD 1, exBD 2, exBD 3] defaultPriority true)) ∧
    normalize (fun _ => none) (.rgbList [exBD 1, exBD 2]) = .error .unsupportedType :=
  ⟨(c2_rgb_list (fun _ => none) [exBD 1, exBD 2, exBD 3]).1 (by decide),
   (c2_rgb_list (fun _ => none) [exBD 1, exBD 2]).2 (by decide)⟩

/-- C3: when two differently named views hold BrainData with the same
identity key (same subject, transform, mask reference and contents),
uniques() contains exactly one element with that key, and the /data
region written by save holds exactly one entry with that key. -/
theorem c3_dedup_uniques_save (ds : Dataset) (n1 n2 : String) (v1 v2 : View)
    (b1 b2 : BrainData)
    (h1 : (n1, v1) ∈ ds.views) (h2 : (n2, v2) ∈ ds.views)
    (hb1 : b1 ∈ v1.channels) (hb2 : b2 ∈ v2.channels)
    (hne : n1 ≠ n2) (hkey : bdKey b1 = bdKey b2) :
    countKey (bdKey b1) ds.uniques = 1 ∧
    countKey (bdKey b1) ds.saveDataEntries = 1 := by
  have hinv : ∀ k', countKey k' ([] : List BrainData) ≤ 1 := by
    intro k'
    simp [countKey]
  constructor
  · have hmem : b1 ∈ ds.iterOrder.flatMap (fun p => p.2.channels) := by
      rw [List.mem_flatMap]
      exact ⟨(n1, v1), ((iterOrder_perm ds).mem_iff).mpr h1, hb1⟩
    have hany : (ds.iterOrder.flatMap (fun p => p.2.channels)).any
        (fun b => decide (bdKey b = bdKey b1)) = true :=
      List.any_eq_true.mpr ⟨b1, hmem, by simp⟩
    rw [Dataset.uniques, countKey_foldl_addUnique _ [] hinv (bdKey b1), if_pos hany]
  · have hmem : b1 ∈ ds.allData := by
      rw [Dataset.allData, List.mem_flatMap]
      exact ⟨(n1, v1), h1, hb1⟩
    have hany : ds.allData.any (fun b => decide (bdKey b = bdKey b1)) = true :=
      List.any_eq_true.mpr ⟨b1, hmem, by simp⟩
    rw [Dataset.saveDataEntries, countKey_foldl_addUnique _ [] hinv (bdKey b1), if_pos hany]

/-- Two content-identical BrainData under different names and object
identities. -/
def bdCopy1 : BrainData :=
  { oid := 10, name := "left", subject := "S", xfmname := some "X",
    mask := .named "thick", contents := [1, 2, 3], variant := .volume }

def bdCopy2 : BrainData :=
  { oid := 11, name := "right", subject := "S", xfmname := some "X",
    mask := .named "thick", contents := [1, 2, 3], variant := .volume }

def dupDS : Dataset :=
  { views := [("u", DataView bdCopy1), ("w", DataView bdCopy2)], h5 := none }

/-- C3 witness: concrete instance of the deduplication theorem. -/
theorem c3_witness :
    countKey (bdKey bdCopy1) dupDS.uniques = 1 ∧
    countKey (bdKey bdCopy1) dupDS.saveDataEntries = 1 :=
  c3_dedup_uniques_save dupDS "u" "w" (DataView bdCopy1) (DataView bdCopy2)
    bdCopy1 bdCopy2 (by decide) (by decide) (by decide) (by decide)
    (by decide) (by decide)

/-- A file whose single stored view references a data entry that does not
exist, so view reconstruction fails with an uncaught KeyError. -/
def badFile : H5File :=
  { topEntries := [],
    viewEntries := [("v", { refs := ["missing"], priority := 1, rgb := false })],
    dataEntries := [] }

/-- C4 counterexample: from_file on badFile fails partway through
reconstruction, and the process-wide auxiliary-source slot is left bound
to the file being loaded instead of being cleared — refuting the claim
that the binding is restored even if reconstruction fails. -/
theorem c4_counterexample :
    (Dataset.from_file badFile).1 = .error .keyError ∧
    (Dataset.from_file badFile).2.2 = some badFile ∧
    (Dataset.from_file badFile).2.2 ≠ none := by
  refine ⟨rfl, rfl, ?_⟩
  intro hc
  rw [show (Dataset.from_file badFile).2.2 = some badFile from rfl] at hc
  cases hc

/-- C4 (amended): the auxiliary-source slot is bound to the Dataset being
loaded for the duration of from_file and is cleared afterwards when the
load completes successfully; when reconstruction fails partway the error
propagates and the slot is left bound to the loading Dataset's file. -/
theorem c4_auxfile_cleared_on_success (file : H5File) :
    (∀ ds warns aux, Dataset.from_file file = (.ok ds, warns, aux) → aux = none) ∧
    (∀ e warns aux, Dataset.from_file file = (.error e, warns, aux) → aux = some file) := by
  constructor
  · intro ds warns aux h
    unfold Dataset.from_file at h
    simp only [] at h
    cases hlv : loadViews file (loadStray [] [] file.topEntries).1 [] file.viewEntries with
    | error e =>
      rw [hlv] at h
      simp at h
    | ok s2 =>
      rw [hlv] at h
      simp only [Prod.mk.injEq] at h
      exact h.2.2.symm
  · intro e' warns aux h
    unfold Dataset.from_file at h
    simp only [] at h
    cases hlv : loadViews file (loadStray [] [] file.topEntries).1 [] file.viewEntries with
    | error e =>
      rw [hlv] at h
      simp only [Prod.mk.injEq] at h
      exact h.2.2.symm
    | ok s2 =>
      rw [hlv] at h
      simp at h

/-- C4 witness: concrete successful load through the amended theorem. -/
theorem c4_witness :
    Dataset.from_file emptyFile = (.ok { views := [], h5 := some emptyFile }, [], none) ∧
    (Dataset.from_file emptyFile).2.2 = none ∧
    (Dataset.from_file badFile).2.2 = some badFile :=
  ⟨rfl,
   (c4_auxfile_cleared_on_success emptyFile).1
     { views := [], h5 := some emptyFile } [] _ rfl,
   (c4_auxfile_cleared_on_success badFile).2 .keyError [] _ rfl⟩

/-- C5: when every stored /views entry reconstructs (and names are not
reused across regions), from_file succeeds and clears the auxiliary slot;
every non-reserved stray entry with metadata loads as a singleton view,
every stray entry without metadata is skipped with a warning, every
/views entry loads, every orphaned /data entry with metadata loads as its
own singleton view, and every orphaned /data entry without metadata is
skipped with a warning. -/
theorem c5_load_skip_and_recover (file : H5File)
    (hok : ∀ p ∈ file.viewEntries, ∃ v, DataView.from_hdf file p.2 = .ok v)
    (hnd : ((file.topEntries.map Prod.fst ++ file.viewEntries.map Prod.fst) ++
      file.dataEntries.map Prod.fst).Nodup) :
    ∃ ds warns,
      Dataset.from_file file = (.ok ds, warns, none) ∧
      (∀ n b, (n, some b) ∈ file.topEntries → n ∉ reservedNames →
        dictGet ds.views n = some (DataView b)) ∧
      (∀ n, (n, (none : DNode)) ∈ file.topEntries → n ∉ reservedNames →
        warnMsg n ∈ warns ∧ dictGet ds.views n = none) ∧
      (∀ n vn v, (n, vn) ∈ file.viewEntries → DataView.from_hdf file vn = .ok v →
        dictGet ds.views n = some v) ∧
      (∀ n b, (n, some b) ∈ file.dataEntries → n ∉ loadedNames file file.viewEntries →
        dictGet ds.views n = some (DataView b)) ∧
      (∀ n, (n, (none : DNode)) ∈ file.dataEntries → n ∉ loadedNames file file.viewEntries →
        warnMsg n ∈ warns ∧ dictGet ds.views n = none) := by
  obtain ⟨hndAB, hndC, hdisjABC⟩ := List.nodup_append.mp hnd
  obtain ⟨hndA, hndB, hdisjAB⟩ := List.nodup_append.mp hndAB
  have hndRV : ((resolvedViews file file.viewEntries).map Prod.fst).Nodup := by
    rw [resolvedViews_keys file file.viewEntries hok]
    exact hndB
  have hfreshRV : ∀ {n : String}, n ∉ file.viewEntries.map Prod.fst →
      ∀ p ∈ resolvedViews file file.viewEntries, p.1 ≠ n := by
    intro n hnB p hp hc
    have hmm := List.mem_map_of_mem Prod.fst hp
    rw [resolvedViews_keys file file.viewEntries hok, hc] at hmm
    exact hnB hmm
  have hfreshDE : ∀ {n : String}, n ∉ file.dataEntries.map Prod.fst →
      ∀ p ∈ file.dataEntries, p.1 ≠ n := by
    intro n hnC p hp hc
    have hmm := List.mem_map_of_mem Prod.fst hp
    rw [hc] at hmm
    exact hnC hmm
  have hfreshT : ∀ {n : String}, n ∉ file.topEntries.map Prod.fst →
      ∀ p ∈ file.topEntries, p.1 ≠ n := by
    intro n hnA p hp hc
    have hmm := List.mem_map_of_mem Prod.fst hp
    rw [hc] at hmm
    exact hnA hmm
  have hlv : loadViews file (loadStray [] [] file.topEntries).1 [] file.viewEntries =
      .ok (dictUpdate (loadStray [] [] file.topEntries).1
        (resolvedViews file file.viewEntries), loadedNames file file.viewEntries) := by
    have h := loadViews_ok file file.viewEntries hok (loadStray [] [] file.topEntries).1 []
    simpa using h
  have hR : Dataset.from_file file =
      (.ok { views := (loadOrphans (loadedNames file file.viewEntries)
               (dictUpdate (loadStray [] [] file.topEntries).1
                 (resolvedViews file file.viewEntries))
               (loadStray [] [] file.topEntries).2 file.dataEntries).1,
             h5 := some file },
       (loadOrphans (loadedNames file file.viewEntries)
         (dictUpdate (loadStray [] [] file.topEntries).1
           (resolvedViews file file.viewEntries))
         (loadStray [] [] file.topEntries).2 file.dataEntries).2, none) := by
    unfold Dataset.from_file
    simp only []
    rw [hlv]
  have hW3 : (loadOrphans (loadedNames file file.viewEntries)
      (dictUpdate (loadStray [] [] file.topEntries).1
        (resolvedViews file file.viewEntries))
      (loadStray [] [] file.topEntries).2 file.dataEntries).2 =
      strayWarns file.topEntries ++
        orphanWarns (loadedNames file file.viewEntries) file.dataEntries := by
    rw [loadOrphans_warns]
    have hW1 : (loadStray [] [] file.topEntries).2 = strayWarns file.topEntries := by
      simpa using loadStray_warns file.topEntries [] []
    rw [hW1]
  refine ⟨_, _, hR, ?_, ?_, ?_, ?_, ?_⟩
  · -- non-reserved stray entries with metadata load as singleton views
    intro n b hmem hr
    have hnA : n ∈ file.topEntries.map Prod.fst := by
      have hmm := List.mem_map_of_mem Prod.fst hmem
      exact hmm
    have hnB : n ∉ file.viewEntries.map Prod.fst := fun hc => hdisjAB hnA hc
    have hnC : n ∉ file.dataEntries.map Prod.fst :=
      fun hc => hdisjABC (List.mem_append_left _ hnA) hc
    show dictGet _ n = some (DataView b)
    rw [loadOrphans_get_of_forall_ne _ _ n (hfreshDE hnC),
      dictGet_dictUpdate_of_forall_ne _ _ n (hfreshRV hnB),
      loadStray_get_found file.topEntries n b hndA hmem hr]
  · -- non-reserved stray entries without metadata: warned and skipped
    intro n hmem hr
    have hnA : n ∈ file.topEntries.map Prod.fst := by
      have hmm := List.mem_map_of_mem Prod.fst hmem
      exact hmm
    have hnB : n ∉ file.viewEntries.map Prod.fst := fun hc => hdisjAB hnA hc
    have hnC : n ∉ file.dataEntries.map Prod.fst :=
      fun hc => hdisjABC (List.mem_append_left _ hnA) hc
    constructor
    · rw [hW3]
      exact List.mem_append_left _ (mem_strayWarns hmem hr)
    · show dictGet _ n = none
      rw [loadOrphans_get_of_forall_ne _ _ n (hfreshDE hnC),
        dictGet_dictUpdate_of_forall_ne _ _ n (hfreshRV hnB),
        loadStray_get_missing file.topEntries n hndA hmem]
      rfl
  · -- every /views entry loads
    intro n vn v hmem hv
    have hnB : n ∈ file.viewEntries.map Prod.fst := by
      have hmm := List.mem_map_of_mem Prod.fst hmem
      exact hmm
    have hnC : n ∉ file.dataEntries.map Prod.fst :=
      fun hc => hdisjABC (List.mem_append_right _ hnB) hc
    show dictGet _ n = some v
    rw [loadOrphans_get_of_forall_ne _ _ n (hfreshDE hnC)]
    exact dictGet_dictUpdate_of_mem _ _ n v hndRV
      (dictGet_of_mem_nodup (mem_resolvedViews hmem hv) hndRV)
  · -- orphaned /data entries with metadata load as singleton views
    intro n b hmem hnl
    show dictGet _ n = some (DataView b)
    rw [loadOrphans_get_found _ file.dataEntries n b hndC hmem hnl]
  · -- orphaned /data entries without metadata: warned and skipped
    intro n hmem hnl
    have hnC : n ∈ file.dataEntries.map Prod.fst := by
      have hmm := List.mem_map_of_mem Prod.fst hmem
      exact hmm
    have hnAB : n ∉ file.topEntries.map Prod.fst ++ file.viewEntries.map Prod.fst :=
      fun hc => hdisjABC hc hnC
    have hnA : n ∉ file.topEntries.map Prod.fst :=
      fun hc => hnAB (List.mem_append_left _ hc)
    have hnB : n ∉ file.viewEntries.map Prod.fst :=
      fun hc => hnAB (List.mem_append_right _ hc)
    constructor
    · rw [hW3]
      exact List.mem_append_right _ (mem_orphanWarns hmem hnl)
    · show dictGet _ n = none
      rw [loadOrphans_get_missing _ file.dataEntries n hndC hmem,
        dictGet_dictUpdate_of_forall_ne _ _ n (hfreshRV hnB),
        loadStray_get_of_forall_ne file.topEntries n (hfreshT hnA)]
      rfl

def bdStray : BrainData :=
  { oid := 20, name := "stray", subject := "S", xfmname := some "X",
    mask := .noMask, contents := [7], variant := .volume }

def bdD1 : BrainData :=
  { oid := 21, name := "d1", subject := "S", xfmname := some "X",
    mask := .noMask, contents := [8], variant := .volume }

def bdOrph : BrainData :=
  { oid := 22, name := "orph", subject := "S", xfmname := some "X",
    mask := .noMask, contents := [9], variant := .volume }

/-- A package with a well-formed stray entry, a metadata-less stray entry,
one stored view, an orphaned data entry and a metadata-less data entry. -/
def exFile : H5File :=
  { topEntries := [("stray", some bdStray), ("junk", none)],
    viewEntries := [("v", { refs := ["d1"], priority := 1, rgb := false })],
    dataEntries := [("d1", some bdD1), ("orph", some bdOrph), ("bad", none)] }

/-- C5 witness: concrete instance of the load-tolerance theorem. -/
theorem c5_witness :
    ∃ ds warns,
      Dataset.from_file exFile = (.ok ds, warns, none) ∧
      dictGet ds.views "stray" = some (DataView bdStray) ∧
      (warnMsg "junk" ∈ warns ∧ dictGet ds.views "junk" = none) ∧
      dictGet ds.views "v" = some { channels := [bdD1], priority := 1, rgb := false } ∧
      dictGet ds.views "orph" = some (DataView bdOrph) ∧
      (warnMsg "bad" ∈ warns ∧ dictGet ds.views "bad" = none) := by
  obtain ⟨ds, warns, hR, ha, hb, hc, hd, he⟩ := c5_load_skip_and_recover exFile
    (by
      intro p hp
      simp only [exFile, List.mem_singleton] at hp
      subst hp
      exact ⟨_, rfl⟩)
    (by decide)
  exact ⟨ds, warns, hR,
    ha "stray" bdStray (by decide) (by decide),
    hb "junk" (by decide) (by decide),
    hc "v" { refs := ["d1"], priority := 1, rgb := false }
      { channels := [bdD1], priority := 1, rgb := false } (by decide) rfl,
    hd "orph" bdOrph (by decide) (by decide),
    he "bad" (by decide) (by decide)⟩

end PyCortex
